import Mathlib

/-!
Verification of the phrasekit matching engine against its specification.

The Rust sources are shallowly embedded: machine integers become `Nat`
(with explicit wrap-around where u32 overflow matters), byte streams become
`List Nat`, fallible reads return `Except`, and the `f32` salience is carried
as its 32-bit pattern wherever only its bytes move.  The overlap resolvers
compare `f32` derived scores only through `partial_cmp`; accordingly they are
parameterized here by a score function `Payload → ℚ` (every finite `f32` value
is rational, so each concrete run of the Rust code is one instantiation).
-/

namespace PhraseKit

/-! ## Payload records (src/payload.rs) -/

/-- The per-pattern payload record (payload.rs).  `salience` is an `f32` in
the source; it is carried here as its 32-bit IEEE-754 pattern, which is all
the binary reader and writer ever touch. -/
structure Payload where
  phrase_id : Nat
  salience : Nat
  count : Nat
  n : Nat
  deriving DecidableEq, Repr

/-- `u32::from_le_bytes` : assemble a 32-bit value from four little-endian
bytes. -/
def fromLeBytes (b0 b1 b2 b3 : Nat) : Nat :=
  b0 + 256 * b1 + 256 ^ 2 * b2 + 256 ^ 3 * b3

/-- `u32::to_le_bytes` : the four little-endian bytes of a 32-bit value. -/
def toLeBytes (x : Nat) : List Nat :=
  [x % 256, x / 256 % 256, x / 256 ^ 2 % 256, x / 256 ^ 3 % 256]

/-- The one I/O failure the byte-list model can produce.  Rust's
`read_exact` reports reaching end-of-input before the buffer is full as
`ErrorKind::UnexpectedEof` — both when zero bytes remain (a clean EOF) and
when a strict prefix of the buffer was filled (a partial record). -/
inductive IoError where
  | unexpectedEof
  deriving DecidableEq, Repr

/-- `Payload::read_from` (payload.rs): read exactly 17 bytes, decode
`phrase_id`, `salience` and `count` from bytes 0..11 little-endian, take `n`
from byte 16, and ignore the reserved bytes 12..15.  Fewer than 17 available
bytes fail with `UnexpectedEof`. -/
def Payload.read_from (bytes : List Nat) : Except IoError (Payload × List Nat) :=
  if 17 ≤ bytes.length then
    let buf := bytes.take 17
    .ok ({ phrase_id := fromLeBytes (buf.getD 0 0) (buf.getD 1 0) (buf.getD 2 0) (buf.getD 3 0)
           salience := fromLeBytes (buf.getD 4 0) (buf.getD 5 0) (buf.getD 6 0) (buf.getD 7 0)
           count := fromLeBytes (buf.getD 8 0) (buf.getD 9 0) (buf.getD 10 0) (buf.getD 11 0)
           n := buf.getD 16 0 }, bytes.drop 17)
  else
    .error .unexpectedEof

/-- `Payload::write_to` (payload.rs): 4 bytes `phrase_id`, 4 bytes
`salience`, 4 bytes `count`, a zeroed 4-byte reserved gap, then the single
byte `n` — all little-endian, 17 bytes in total. -/
def Payload.write_to (p : Payload) : List Nat :=
  toLeBytes p.phrase_id ++ toLeBytes p.salience ++ toLeBytes p.count ++ [0, 0, 0, 0] ++ [p.n]

/-- The loop body of `load_payloads` (payload.rs): read records until an
error; `UnexpectedEof` breaks the loop successfully, any other error would
propagate (in the byte-list model `read_from` only ever fails with
`unexpectedEof`).  The `fuel` argument only serves totality: one record
consumes 17 bytes, so `bytes.length + 1` iterations are never exhausted and
the function computes exactly what the Rust loop does. -/
def loadLoop : Nat → List Nat → Except IoError (List Payload)
  | 0, _ => .ok []
  | fuel + 1, bytes =>
    match Payload.read_from bytes with
    | .ok pr =>
      match loadLoop fuel pr.2 with
      | .ok ps => .ok (pr.1 :: ps)
      | .error e => .error e
    | .error .unexpectedEof => .ok []

/-- `load_payloads` (payload.rs). -/
def load_payloads (bytes : List Nat) : Except IoError (List Payload) :=
  loadLoop (bytes.length + 1) bytes

/-- The `self.count + 1` computed inside `Payload::salience_score`
(payload.rs).  `count` is a `u32`, so the addition wraps at `2 ^ 32`
(release builds; debug builds panic at the same input). -/
def countPlusOne (count : Nat) : Nat :=
  (count + 1) % 2 ^ 32

/-! ## Match records and overlap resolution (src/policy.rs) -/

/-- `MatchPolicy` (policy.rs). -/
inductive MatchPolicy where
  | LeftmostLongest
  | LeftmostFirst
  | SalienceMax
  deriving DecidableEq, Repr

/-- `Match` (policy.rs).  `end` is a reserved word in Lean, hence the
quoted field name. -/
structure Match where
  start : Nat
  «end» : Nat
  pattern_id : Nat
  payload : Payload
  deriving DecidableEq, Repr

/-- `Match::len` : `self.end - self.start`.  The source subtracts `usize`
values; on `end < start` a debug build panics, so the truncated `Nat`
subtraction is exact on every input the source accepts silently. -/
def Match.len (m : Match) : Nat := m.«end» - m.start

/-- `Match::overlaps` : `!(self.end <= other.start || other.end <= self.start)`. -/
def Match.overlaps (self other : Match) : Bool :=
  decide (¬ (self.«end» ≤ other.start ∨ other.«end» ≤ self.start))

/-- The half-open interval reading of `Match.overlaps`. -/
theorem Match.overlaps_iff (a b : Match) :
    a.overlaps b = true ↔ (b.start < a.«end» ∧ a.start < b.«end») := by
  simp [Match.overlaps]

/-- The sort key used by `resolve_overlaps`. -/
def startLe (a b : Match) : Prop := a.start ≤ b.start

instance : DecidableRel startLe := fun a b => Nat.decLe a.start b.start

instance : IsTotal Match startLe := ⟨fun a b => Nat.le_total a.start b.start⟩

instance : IsTrans Match startLe := ⟨fun _ _ _ => Nat.le_trans⟩

/-- `matches.sort_by_key(|m| m.start)` (policy.rs).  Rust's sort is stable,
and a stable sort by a key has a unique result (sorted by key, with
equal-key elements in input order), so insertion sort computes exactly it. -/
def sortByStart (ms : List Match) : List Match :=
  ms.insertionSort startLe

/-- Rust `Iterator::max_by_key` on the nonempty slice `first :: rest`: the
fold replaces the current best whenever the next key is at least as large,
so of several maximal elements the LAST one is returned, exactly as the Rust
documentation states. -/
def maxByLast (key : Match → Nat) (first : Match) (rest : List Match) : Match :=
  rest.foldl (fun best x => if key best ≤ key x then x else best) first

/-- Rust `Iterator::max_by` with the comparator of `resolve_salience_max`:
`a.salience_score().partial_cmp(&b).unwrap_or(Equal)`.  The fold keeps the
current best only when it compares strictly greater, so of several elements
with equally maximal score the LAST one is returned. -/
def maxScoreLast (score : Payload → ℚ) (first : Match) (rest : List Match) : Match :=
  rest.foldl (fun best x => if score x.payload < score best.payload then best else x) first

/-- The loop of `resolve_leftmost_first` (policy.rs): accept any match whose
`start` has reached the cursor, and move the cursor to its `end`. -/
def lfLoop : Nat → List Match → List Match
  | _, [] => []
  | current_end, m :: rest =>
    if current_end ≤ m.start then m :: lfLoop m.«end» rest
    else lfLoop current_end rest

/-- `resolve_leftmost_first` (policy.rs), on the already-sorted list. -/
def resolve_leftmost_first (ms : List Match) : List Match :=
  lfLoop 0 ms

/-- The loop of `resolve_leftmost_longest` (policy.rs): each index is
visited once; an index whose `start` is below the cursor is skipped,
otherwise the run of equal `start` beginning there forms the group, its
last longest member is pushed, and the cursor becomes that member's
`end`. -/
def llLoop : Nat → List Match → List Match
  | _, [] => []
  | current_end, m :: rest =>
    if m.start < current_end then llLoop current_end rest
    else
      let grp := rest.takeWhile (fun x => decide (x.start = m.start))
      let longest := maxByLast Match.len m grp
      longest :: llLoop longest.«end» rest

/-- `resolve_leftmost_longest` (policy.rs), on the already-sorted list. -/
def resolve_leftmost_longest (ms : List Match) : List Match :=
  llLoop 0 ms

/-- The loop of `resolve_salience_max` (policy.rs): the component is the
run of matches each overlapping the component's FIRST match; the last
score-maximal member is pushed; the loop resumes at the first match (from
the current position on) whose `start` has reached the pushed match's
`end`.  The Rust `while` advances strictly whenever that pushed match has
positive length, so `fuel = ms.length` is never exhausted on a run the Rust
loop finishes; on inputs where the Rust loop never terminates (a selected
match with `end ≤ start`) this model returns the matches pushed in the
first `fuel` iterations. -/
def smLoop (score : Payload → ℚ) : Nat → List Match → List Match
  | 0, _ => []
  | _, [] => []
  | fuel + 1, m :: rest =>
    let comp := rest.takeWhile (fun x => x.overlaps m)
    let best := maxScoreLast score m comp
    best :: smLoop score fuel ((m :: rest).dropWhile (fun x => decide (x.start < best.«end»)))

/-- `resolve_salience_max` (policy.rs), on the already-sorted list. -/
def resolve_salience_max (score : Payload → ℚ) (ms : List Match) : List Match :=
  smLoop score ms.length ms

/-- `resolve_overlaps` (policy.rs): return an empty input unchanged,
stable-sort by `start`, and dispatch on the policy.  `score` abstracts the
`f32` computation `salience * ln(count + 1)`; the resolvers consult it only
through comparisons.  (`matches` is reserved in Lean, hence `ms`.) -/
def resolve_overlaps (score : Payload → ℚ) (ms : List Match) (policy : MatchPolicy) :
    List Match :=
  if ms.isEmpty then ms
  else
    match policy with
    | .LeftmostLongest => resolve_leftmost_longest (sortByStart ms)
    | .LeftmostFirst => resolve_leftmost_first (sortByStart ms)
    | .SalienceMax => resolve_salience_max score (sortByStart ms)

/-! ## The Ruby-facing wrapper (src/lib.rs) -/

/-- The errors `MatcherWrapper` raises into Ruby. -/
inductive RubyError where
  | runtimeError (msg : String)
  deriving DecidableEq, Repr

/-- The loaded matcher (matcher.rs).  Of its four fields only the payload
table matters to the claims below; the automaton, manifest and load
timestamp carry no information the claims consult. -/
structure Matcher where
  payloads : List Payload

/-- `MatcherWrapper::healthcheck` (lib.rs): take the read guard; a missing
matcher becomes a Ruby `RuntimeError` via `ok_or_else(..)?`, otherwise the
method returns `Ok(true)`. -/
def healthcheck (matcher : Option Matcher) : Except RubyError Bool :=
  match matcher with
  | some _ => .ok true
  | none => .error (.runtimeError "Matcher not loaded")

/-! ## The artifact builder (src/bin/phrasekit_build.rs) -/

/-- One parsed line of the build input (`PhraseInput` in phrasekit_build.rs).
`salience` is compared against the threshold as an `f32`; every finite `f32`
is a rational, so `ℚ` carries those comparisons exactly. -/
structure PhraseInput where
  tokens : List String
  phrase_id : Nat
  salience : ℚ
  count : Nat
  deriving DecidableEq

/-- `BuildConfig` (phrasekit_build.rs). -/
structure BuildConfig where
  version : String
  tokenizer : String
  separator_id : Nat
  min_count : Option Nat
  salience_threshold : Option ℚ
  deriving DecidableEq

/-- Rust `str::to_lowercase`, character by character.  (Lean's character
lowercasing covers the ASCII range; the builder claims below are settled on
ASCII tokens, where the two agree exactly.) -/
def toLowerStr (s : String) : String := ⟨s.data.map Char.toLower⟩

/-- Insertion into the `HashSet` of distinct lowercased tokens, modelled as
a duplicate-free list (the set is sorted before use, so its order is
irrelevant). -/
def insertUniqueToken (l : List String) (s : String) : List String :=
  if s ∈ l then l else l ++ [s]

/-- One iteration of the phrase-validation loop in `load_and_validate_phrases`
(phrasekit_build.rs lines 232-289), on an already-parsed line.  The checks
run in source order: `count` below `min_count`, `salience` below
`salience_threshold`, an empty token sequence, then a duplicate `phrase_id`.
The source also scans for empty token STRINGS, but its `continue` only exits
that inner token loop, so the scan never rejects a phrase and is omitted
here.  No check involves `separator_id`. -/
def validateStep (config : BuildConfig) (acc : List PhraseInput × List Nat × List String)
    (phrase : PhraseInput) : List PhraseInput × List Nat × List String :=
  let (phrases, seen_ids, unique_tokens) := acc
  if (match config.min_count with
      | some mc => decide (phrase.count < mc)
      | none => false) then acc
  else if (match config.salience_threshold with
      | some t => decide (phrase.salience < t)
      | none => false) then acc
  else if phrase.tokens.isEmpty then acc
  else if phrase.phrase_id ∈ seen_ids then acc
  else (phrases ++ [phrase], seen_ids ++ [phrase.phrase_id],
    (phrase.tokens.map toLowerStr).foldl insertUniqueToken unique_tokens)

/-- `load_and_validate_phrases` (phrasekit_build.rs): the accepted phrases in
input order together with the set of distinct lowercased tokens. -/
def load_and_validate_phrases (config : BuildConfig) (lines : List PhraseInput) :
    List PhraseInput × List String :=
  let r := lines.foldl (validateStep config) ([], [], [])
  (r.1, r.2.2)

/-- Lexicographic comparison of character lists: the order `Vec<String>::sort`
uses (byte-lexicographic on UTF-8, which coincides with code-point
lexicographic order). -/
def charListLe : List Char → List Char → Bool
  | [], _ => true
  | _ :: _, [] => false
  | a :: as, b :: bs => if a < b then true else if b < a then false else charListLe as bs

/-- The string order of `sorted_tokens.sort()`. -/
def strLe (a b : String) : Prop := charListLe a.data b.data = true

instance : DecidableRel strLe :=
  fun a b => instDecidableEqBool (charListLe a.data b.data) true

/-- The `sorted_tokens.sort()` of `build_vocabulary`. -/
def sortStrings (l : List String) : List String :=
  l.insertionSort strLe

/-- `build_vocabulary` (phrasekit_build.rs): the sorted distinct tokens get
ids 1, 2, …; a lookup miss yields 0, the `<UNK>` special token, exactly as
`vocabulary.tokens.get(..).unwrap_or(&0)` does in `main`. -/
def vocabId (sorted_tokens : List String) (t : String) : Nat :=
  match sorted_tokens.findIdx? (fun s => s == t) with
  | some idx => idx + 1
  | none => 0

/-- The token-id sequences `main` builds patterns from (phrasekit_build.rs
lines 119-132): each accepted phrase's tokens, lowercased and looked up in
the vocabulary.  These sequences are byte-encoded by `encode_tokens` and fed
to the automaton. -/
def builtPatterns (config : BuildConfig) (lines : List PhraseInput) : List (List Nat) :=
  let r := load_and_validate_phrases config lines
  let sorted := sortStrings r.2
  r.1.map (fun phrase => phrase.tokens.map (fun t => vocabId sorted (toLowerStr t)))

/-! ## Spec-side models

The definitions below are NOT translations of the source; each follows the
words of one claim (or of its amended form) and is compared against the
source embedding above. -/

/-- Claim C1's grouping rule, following its words: a connected component
"extends as long as each match overlaps the next one".  `chainInto m l`
collects matches while each overlaps its predecessor, and returns the
collected run together with the remainder of the list. -/
def chainInto (m : Match) : List Match → List Match × List Match
  | [] => ([], [])
  | x :: xs =>
    if x.overlaps m then
      let r := chainInto x xs
      (x :: r.1, r.2)
    else ([], x :: xs)

/-- The chain-connected components of claim C1, as head/tail pairs.  Each
step consumes at least the head, so `fuel = ms.length` is always enough and
the fuel never alters the result. -/
def chainComponentsLoop : Nat → List Match → List (Match × List Match)
  | 0, _ => []
  | _, [] => []
  | fuel + 1, m :: rest =>
    let r := chainInto m rest
    (m, r.1) :: chainComponentsLoop fuel r.2

/-- The partition of claim C1. -/
def chainComponents (ms : List Match) : List (Match × List Match) :=
  chainComponentsLoop ms.length ms

/-- Claim C1 as stated: partition the start-sorted matches into
chain-connected components and pick the score-maximal match of each
component (the last such on ties, matching the resolver's selection, so that
only the grouping is at stake). -/
def specSalienceMaxChainClaim (score : Payload → ℚ) (ms : List Match) : List Match :=
  (chainComponents (sortByStart ms)).map (fun c => maxScoreLast score c.1 c.2)

/-- The maximal score attained on `first :: rest`. -/
def maxScoreVal (score : Payload → ℚ) (first : Match) (rest : List Match) : ℚ :=
  rest.foldl (fun b x => max b (score x.payload)) (score first.payload)

/-- The LAST element of `first :: rest` attaining the maximal score: the
amended tie rule (Rust `max_by` keeps the later of equally-maximal
elements). -/
def lastArgmax (score : Payload → ℚ) (first : Match) (rest : List Match) : Match :=
  ((first :: rest).filter
    (fun x => decide (score x.payload = maxScoreVal score first rest))).getLastD first

/-- The claimed tie-breaking selection of claim C3: greatest score, ties by
greater `n`, then smaller `start`, then smaller `pattern_id`. -/
def claimTiePick (score : Payload → ℚ) (first : Match) (rest : List Match) : Match :=
  rest.foldl (fun best x =>
    if score best.payload < score x.payload
        ∨ (score best.payload = score x.payload
          ∧ (best.payload.n < x.payload.n
            ∨ (best.payload.n = x.payload.n
              ∧ (x.start < best.start
                ∨ (x.start = best.start ∧ x.pattern_id < best.pattern_id))))) then x
    else best) first

/-- The component/selection skeleton shared by the salience_max claims:
the component is every remaining match overlapping the first remaining
match, `pick` selects from it, and every match whose `start` is below the
selection's `end` is discarded before the next round. -/
def specSMStep (pick : Match → List Match → Match) : Nat → List Match → List Match
  | 0, _ => []
  | _, [] => []
  | fuel + 1, m :: rest =>
    let comp := rest.filter (fun x => x.overlaps m)
    let best := pick m comp
    best :: specSMStep pick fuel ((m :: rest).filter (fun x => decide (¬ x.start < best.«end»)))

/-- Claim C1 amended: components are runs overlapping their FIRST match,
selection is the last score-maximal member, and scanning resumes at the
first match whose `start` has reached the selection's `end`. -/
def specSalienceMaxAmended (score : Payload → ℚ) (ms : List Match) : List Match :=
  specSMStep (lastArgmax score) ms.length (sortByStart ms)

/-- Claim C3 as stated: the resolver's components with the claimed
n/start/pattern_id tie-breaking selection. -/
def specSalienceMaxClaimTie (score : Payload → ℚ) (ms : List Match) : List Match :=
  specSMStep (claimTiePick score) ms.length (sortByStart ms)

/-- The smallest `start` on `first :: rest` ("the smallest remaining
start" of claim C2). -/
def minStart (first : Match) (rest : List Match) : Nat :=
  rest.foldl (fun b x => min b x.start) first.start

/-- Claim C2's selection as stated: greatest `end`, ties by greatest
`pattern_id`. -/
def claimPickLL (first : Match) (rest : List Match) : Match :=
  rest.foldl (fun best x =>
    if best.«end» < x.«end» ∨ (best.«end» = x.«end» ∧ best.pattern_id < x.pattern_id) then x
    else best) first

/-- Claim C2's selection amended: greatest `end`, of several the LAST in
the stable-sorted order. -/
def lastMaxByEnd (first : Match) (rest : List Match) : Match :=
  rest.foldl (fun best x => if best.«end» ≤ x.«end» then x else best) first

/-- The group/cursor skeleton of claim C2: among all matches sharing the
smallest remaining `start`, `pick` one; discard every match whose `start`
is below that pick's `end`; repeat. -/
def specLLStep (pick : Match → List Match → Match) : Nat → List Match → List Match
  | 0, _ => []
  | _, [] => []
  | fuel + 1, m :: rest =>
    let s := minStart m rest
    match (m :: rest).filter (fun x => decide (x.start = s)) with
    | [] => []
    | g :: gs =>
      let w := pick g gs
      w :: specLLStep pick fuel ((m :: rest).filter (fun x => decide (¬ x.start < w.«end»)))

/-- Claim C2 as stated. -/
def specLeftmostLongestClaim (ms : List Match) : List Match :=
  specLLStep claimPickLL ms.length (sortByStart ms)

/-- Claim C2 amended (last-of-group tie rule instead of pattern_id). -/
def specLeftmostLongestAmended (ms : List Match) : List Match :=
  specLLStep lastMaxByEnd ms.length (sortByStart ms)

/-! ## Helper lemmas -/

/-- A fold that at each step keeps either the accumulator or the next
element lands on the seed or a member of the list. -/
theorem foldl_choice_mem (f : Match → Match → Match)
    (hf : ∀ b x, f b x = b ∨ f b x = x) :
    ∀ (l : List Match) (a : Match), l.foldl f a ∈ a :: l := by
  intro l
  induction l with
  | nil => intro a; simp
  | cons x xs ih =>
    intro a
    have h := ih (f a x)
    rw [List.foldl_cons]
    rcases List.mem_cons.1 h with h1 | h1
    · rw [h1]
      rcases hf a x with h2 | h2 <;> rw [h2]
      · exact List.mem_cons_self _ _
      · exact List.mem_cons_of_mem _ (List.mem_cons_self _ _)
    · exact List.mem_cons_of_mem _ (List.mem_cons_of_mem _ h1)

theorem takeWhile_congr_mem {p q : Match → Bool} :
    ∀ {l : List Match}, (∀ x ∈ l, p x = q x) → l.takeWhile p = l.takeWhile q := by
  intro l
  induction l with
  | nil => intro _; rfl
  | cons x xs ih =>
    intro h
    have hx : p x = q x := h x (by simp)
    rw [List.takeWhile_cons, List.takeWhile_cons, ← hx]
    cases hp : p x
    · rfl
    · rw [ih (fun y hy => h y (List.mem_cons_of_mem _ hy))]

theorem filter_congr_mem {p q : Match → Bool} :
    ∀ {l : List Match}, (∀ x ∈ l, p x = q x) → l.filter p = l.filter q := by
  intro l
  induction l with
  | nil => intro _; rfl
  | cons x xs ih =>
    intro h
    have hx : p x = q x := h x (by simp)
    have ht := ih (fun y hy => h y (List.mem_cons_of_mem _ hy))
    rw [List.filter_cons, List.filter_cons, ← hx, ht]

/-- On a start-sorted list, a `start < c` cut is a prefix: taking while
equals filtering. -/
theorem sorted_takeWhile_lt_filter {c : Nat} :
    ∀ {l : List Match}, l.Sorted startLe →
      l.takeWhile (fun x => decide (x.start < c)) = l.filter (fun x => decide (x.start < c)) := by
  intro l
  induction l with
  | nil => intro _; rfl
  | cons m rest ih =>
    intro hs
    rcases List.sorted_cons.1 hs with ⟨hm, hrest⟩
    rw [List.takeWhile_cons, List.filter_cons]
    by_cases hc : m.start < c
    · rw [if_pos (by simpa using hc), if_pos (by simpa using hc), ih hrest]
    · rw [if_neg (by simpa using hc), if_neg (by simpa using hc)]
      have : rest.filter (fun x => decide (x.start < c)) = [] := by
        rw [List.filter_eq_nil_iff]
        intro x hx
        have hmx := hm x hx
        simp only [startLe] at hmx
        simp only [decide_eq_true_eq]
        omega
      rw [this]

/-- On a start-sorted list, dropping while `start < c` equals filtering by
the complement. -/
theorem sorted_dropWhile_lt_filter {c : Nat} :
    ∀ {l : List Match}, l.Sorted startLe →
      l.dropWhile (fun x => decide (x.start < c)) = l.filter (fun x => decide (¬ x.start < c)) := by
  intro l
  induction l with
  | nil => intro _; rfl
  | cons m rest ih =>
    intro hs
    rcases List.sorted_cons.1 hs with ⟨hm, hrest⟩
    rw [List.dropWhile_cons, List.filter_cons]
    by_cases hc : m.start < c
    · rw [if_pos (by simpa using hc), if_neg (by simp [hc]), ih hrest]
    · rw [if_neg (by simpa using hc), if_pos (by simp [hc])]
      have : rest.filter (fun x => decide (¬ x.start < c)) = rest := by
        rw [List.filter_eq_self]
        intro x hx
        have hmx := hm x hx
        simp only [startLe] at hmx
        simp only [decide_eq_true_eq]
        omega
      rw [this]

/-- Every survivor of a `start < c` drop on a start-sorted list has
`c ≤ start`. -/
theorem mem_dropWhile_lt_lb {c : Nat} {l : List Match} {x : Match}
    (hs : l.Sorted startLe)
    (hx : x ∈ l.dropWhile (fun x => decide (x.start < c))) : c ≤ x.start := by
  rw [sorted_dropWhile_lt_filter hs] at hx
  have := (List.mem_filter.1 hx).2
  simp at this
  omega

/-- Folding `min` over starts that all dominate the seed returns the seed. -/
theorem foldl_min_start :
    ∀ {l : List Match} {a : Nat}, (∀ x ∈ l, a ≤ x.start) →
      l.foldl (fun b x => min b x.start) a = a := by
  intro l
  induction l with
  | nil => intro a _; rfl
  | cons x xs ih =>
    intro a h
    have hx : a ≤ x.start := h x (by simp)
    simp only [List.foldl_cons, Nat.min_eq_left hx]
    exact ih (fun y hy => h y (List.mem_cons_of_mem _ hy))

theorem maxByLast_mem (key : Match → Nat) (first : Match) (rest : List Match) :
    maxByLast key first rest ∈ first :: rest :=
  foldl_choice_mem _ (fun b x => by by_cases h : key b ≤ key x <;> simp [h]) rest first

theorem maxScoreLast_mem (score : Payload → ℚ) (first : Match) (rest : List Match) :
    maxScoreLast score first rest ∈ first :: rest :=
  foldl_choice_mem _ (fun b x => by by_cases h : score x.payload < score b.payload <;> simp [h])
    rest first

/-- Members of the group of equal starts taken by `llLoop`. -/
theorem mem_start_group {m x : Match} {rest : List Match}
    (hx : x ∈ rest.takeWhile (fun x => decide (x.start = m.start))) : x.start = m.start := by
  have := List.mem_takeWhile_imp hx
  simpa using this

/-- Everything `lfLoop` emits comes from its input. -/
theorem lfLoop_mem : ∀ {c : Nat} {l : List Match} {x : Match}, x ∈ lfLoop c l → x ∈ l := by
  intro c l
  induction l generalizing c with
  | nil => intro x hx; simp [lfLoop] at hx
  | cons m rest ih =>
    intro x hx
    rw [lfLoop] at hx
    by_cases h : c ≤ m.start
    · rw [if_pos h] at hx
      rcases List.mem_cons.1 hx with h1 | h1
      · simp [h1]
      · exact List.mem_cons_of_mem _ (ih h1)
    · rw [if_neg h] at hx
      exact List.mem_cons_of_mem _ (ih hx)

/-- Everything `llLoop` emits comes from its input. -/
theorem llLoop_mem : ∀ {c : Nat} {l : List Match} {x : Match}, x ∈ llLoop c l → x ∈ l := by
  intro c l
  induction l generalizing c with
  | nil => intro x hx; simp [llLoop] at hx
  | cons m rest ih =>
    intro x hx
    rw [llLoop] at hx
    by_cases h : m.start < c
    · rw [if_pos h] at hx
      exact List.mem_cons_of_mem _ (ih hx)
    · rw [if_neg h] at hx
      rcases List.mem_cons.1 hx with h1 | h1
      · rw [h1]
        have hb := maxByLast_mem Match.len m
          (rest.takeWhile (fun x => decide (x.start = m.start)))
        rcases List.mem_cons.1 hb with h2 | h2
        · simp [h2]
        · exact List.mem_cons_of_mem _ ((List.takeWhile_sublist _).subset h2)
      · exact List.mem_cons_of_mem _ (ih h1)

/-- Everything `smLoop` emits comes from its input. -/
theorem smLoop_mem (score : Payload → ℚ) :
    ∀ {fuel : Nat} {l : List Match} {x : Match}, x ∈ smLoop score fuel l → x ∈ l := by
  intro fuel
  induction fuel with
  | zero => intro l x hx; simp [smLoop] at hx
  | succ fuel ih =>
    intro l x hx
    match l with
    | [] => simp [smLoop] at hx
    | m :: rest =>
      rw [smLoop] at hx
      rcases List.mem_cons.1 hx with h1 | h1
      · rw [h1]
        have hb := maxScoreLast_mem score m (rest.takeWhile (fun x => x.overlaps m))
        rcases List.mem_cons.1 hb with h2 | h2
        · simp [h2]
        · exact List.mem_cons_of_mem _ ((List.takeWhile_sublist _).subset h2)
      · exact (List.dropWhile_sublist _).subset (ih h1)

/-- Everything `lfLoop` emits on a sorted list has reached the cursor. -/
theorem lfLoop_lb : ∀ {c : Nat} {l : List Match} {x : Match}, l.Sorted startLe →
    x ∈ lfLoop c l → c ≤ x.start := by
  intro c l
  induction l generalizing c with
  | nil => intro x _ hx; simp [lfLoop] at hx
  | cons m rest ih =>
    intro x hs hx
    rcases List.sorted_cons.1 hs with ⟨hm, hrest⟩
    rw [lfLoop] at hx
    by_cases h : c ≤ m.start
    · rw [if_pos h] at hx
      rcases List.mem_cons.1 hx with h1 | h1
      · rw [h1]; exact h
      · have := hm x (lfLoop_mem h1)
        simp only [startLe] at this
        omega
    · rw [if_neg h] at hx
      exact ih hrest hx

/-- Everything `llLoop` emits on a sorted list has reached the cursor. -/
theorem llLoop_lb : ∀ {c : Nat} {l : List Match} {x : Match}, l.Sorted startLe →
    x ∈ llLoop c l → c ≤ x.start := by
  intro c l
  induction l generalizing c with
  | nil => intro x _ hx; simp [llLoop] at hx
  | cons m rest ih =>
    intro x hs hx
    rcases List.sorted_cons.1 hs with ⟨hm, hrest⟩
    rw [llLoop] at hx
    by_cases h : m.start < c
    · rw [if_pos h] at hx
      exact ih hrest hx
    · rw [if_neg h] at hx
      rcases List.mem_cons.1 hx with h1 | h1
      · have hb := maxByLast_mem Match.len m
          (rest.takeWhile (fun x => decide (x.start = m.start)))
        have hstart : (maxByLast Match.len m
            (rest.takeWhile (fun x => decide (x.start = m.start)))).start = m.start := by
          rcases List.mem_cons.1 hb with h2 | h2
          · rw [h2]
          · exact mem_start_group h2
        rw [h1, hstart]
        omega
      · have := hm x (llLoop_mem h1)
        simp only [startLe] at this
        omega

/-- `lfLoop` output: each accepted match ends before the next accepted one
starts. -/
theorem lfLoop_pairwise : ∀ {c : Nat} {l : List Match}, l.Sorted startLe →
    (lfLoop c l).Pairwise (fun a b => a.«end» ≤ b.start) := by
  intro c l
  induction l generalizing c with
  | nil => intro _; simp [lfLoop]
  | cons m rest ih =>
    intro hs
    rcases List.sorted_cons.1 hs with ⟨hm, hrest⟩
    rw [lfLoop]
    by_cases h : c ≤ m.start
    · rw [if_pos h]
      exact List.Pairwise.cons (fun y hy => lfLoop_lb hrest hy) (ih hrest)
    · rw [if_neg h]
      exact ih hrest

/-- `llLoop` output: each pushed match ends before the next pushed one
starts. -/
theorem llLoop_pairwise : ∀ {c : Nat} {l : List Match}, l.Sorted startLe →
    (llLoop c l).Pairwise (fun a b => a.«end» ≤ b.start) := by
  intro c l
  induction l generalizing c with
  | nil => intro _; simp [llLoop]
  | cons m rest ih =>
    intro hs
    rcases List.sorted_cons.1 hs with ⟨hm, hrest⟩
    rw [llLoop]
    by_cases h : m.start < c
    · rw [if_pos h]
      exact ih hrest
    · rw [if_neg h]
      exact List.Pairwise.cons (fun y hy => llLoop_lb hrest hy) (ih hrest)

/-- `smLoop` output: each pushed match ends before the next pushed one
starts. -/
theorem smLoop_pairwise (score : Payload → ℚ) :
    ∀ {fuel : Nat} {l : List Match}, l.Sorted startLe →
      (smLoop score fuel l).Pairwise (fun a b => a.«end» ≤ b.start) := by
  intro fuel
  induction fuel with
  | zero => intro l _; simp [smLoop]
  | succ fuel ih =>
    intro l hs
    match l with
    | [] => simp [smLoop]
    | m :: rest =>
      rw [smLoop]
      refine List.Pairwise.cons ?_ (ih ?_)
      · intro y hy
        have hy' := smLoop_mem score hy
        exact mem_dropWhile_lt_lb hs hy'
      · exact hs.sublist (List.dropWhile_sublist _)

theorem maxScoreLast_cons (score : Payload → ℚ) (f x : Match) (xs : List Match) :
    maxScoreLast score f (x :: xs)
      = maxScoreLast score (if score x.payload < score f.payload then f else x) xs := rfl

theorem maxByLast_cons (key : Match → Nat) (f x : Match) (xs : List Match) :
    maxByLast key f (x :: xs) = maxByLast key (if key f ≤ key x then x else f) xs := rfl

theorem lastMaxByEnd_cons (f x : Match) (xs : List Match) :
    lastMaxByEnd f (x :: xs) = lastMaxByEnd (if f.«end» ≤ x.«end» then x else f) xs := rfl

theorem maxScoreVal_cons (score : Payload → ℚ) (f x : Match) (xs : List Match) :
    maxScoreVal score f (x :: xs)
      = maxScoreVal score (if score x.payload < score f.payload then f else x) xs := by
  unfold maxScoreVal
  rw [List.foldl_cons]
  congr 1
  by_cases h : score x.payload < score f.payload
  · rw [if_pos h, max_eq_left (le_of_lt h)]
  · rw [if_neg h, max_eq_right (le_of_not_lt h)]

theorem le_maxScoreVal (score : Payload → ℚ) :
    ∀ (xs : List Match) (f : Match), score f.payload ≤ maxScoreVal score f xs := by
  intro xs
  induction xs with
  | nil => intro f; exact le_refl _
  | cons x xs ih =>
    intro f
    rw [maxScoreVal_cons]
    by_cases h : score x.payload < score f.payload
    · rw [if_pos h]; exact ih f
    · rw [if_neg h]
      exact le_trans (le_of_not_lt h) (ih x)

theorem maxScoreVal_attained (score : Payload → ℚ) :
    ∀ (xs : List Match) (f : Match),
      score f.payload = maxScoreVal score f xs
        ∨ ∃ y ∈ xs, score y.payload = maxScoreVal score f xs := by
  intro xs
  induction xs with
  | nil => intro f; left; rfl
  | cons x xs ih =>
    intro f
    rw [maxScoreVal_cons]
    by_cases h : score x.payload < score f.payload
    · rw [if_pos h]
      rcases ih f with h1 | ⟨y, hy, h1⟩
      · left; exact h1
      · right; exact ⟨y, List.mem_cons_of_mem _ hy, h1⟩
    · rw [if_neg h]
      rcases ih x with h1 | ⟨y, hy, h1⟩
      · right; exact ⟨x, by simp, h1⟩
      · right; exact ⟨y, List.mem_cons_of_mem _ hy, h1⟩

/-- A nonempty list's `getLastD` ignores the default. -/
theorem getLastD_irrel {l : List Match} (h : l ≠ []) (d₁ d₂ : Match) :
    l.getLastD d₁ = l.getLastD d₂ := by
  cases l with
  | nil => exact absurd rfl h
  | cons a t => rw [List.getLastD_cons, List.getLastD_cons]

/-- The fold `max_by` performs equals "the last element attaining the
maximal score": claim C3's amended selection rule. -/
theorem maxScoreLast_eq_lastArgmax (score : Payload → ℚ) :
    ∀ (rest : List Match) (first : Match),
      maxScoreLast score first rest = lastArgmax score first rest := by
  intro rest
  induction rest with
  | nil =>
    intro f
    simp [maxScoreLast, lastArgmax, maxScoreVal, List.filter]
  | cons x xs ih =>
    intro f
    rw [maxScoreLast_cons]
    set g := if score x.payload < score f.payload then f else x with hg
    rw [ih g]
    unfold lastArgmax
    rw [← maxScoreVal_cons score f x xs]
    set M := maxScoreVal score f (x :: xs) with hM
    set F := xs.filter (fun y => decide (score y.payload = M)) with hF
    have hfil1 : (f :: x :: xs).filter (fun y => decide (score y.payload = M))
        = (if score f.payload = M then [f] else []) ++ (if score x.payload = M then [x] else []) ++ F := by
      rw [List.filter_cons, List.filter_cons]
      by_cases h1 : score f.payload = M
      · by_cases h2 : score x.payload = M
        · rw [if_pos (by simpa using h1), if_pos (by simpa using h2), if_pos h1, if_pos h2]
          rfl
        · rw [if_pos (by simpa using h1), if_neg (by simpa using h2), if_pos h1, if_neg h2]
          rfl
      · by_cases h2 : score x.payload = M
        · rw [if_neg (by simpa using h1), if_pos (by simpa using h2), if_neg h1, if_pos h2]
          rfl
        · rw [if_neg (by simpa using h1), if_neg (by simpa using h2), if_neg h1, if_neg h2]
          rfl
    have hfil2 : (g :: xs).filter (fun y => decide (score y.payload = M))
        = (if score g.payload = M then [g] else []) ++ F := by
      rw [List.filter_cons]
      by_cases h1 : score g.payload = M
      · rw [if_pos (by simpa using h1), if_pos h1]; rfl
      · rw [if_neg (by simpa using h1), if_neg h1]; rfl
    rw [hfil1, hfil2]
    by_cases hlt : score x.payload < score f.payload
    · -- g = f, and x cannot attain the maximum
      have hgf : g = f := by rw [hg, if_pos hlt]
      have hfM : score f.payload ≤ M := by
        rw [hM, maxScoreVal_cons, ← hg, hgf]
        exact le_maxScoreVal score xs f
      have hxM : ¬ score x.payload = M := by
        intro hh
        rw [hh] at hlt
        exact absurd (lt_of_lt_of_le hlt hfM) (lt_irrefl _)
      rw [if_neg hxM, hgf]
      by_cases h1 : score f.payload = M
      · rw [if_pos h1]; rfl
      · rw [if_neg h1]; rfl
    · -- g = x
      have hgx : g = x := by rw [hg, if_neg hlt]
      have hfx : score f.payload ≤ score x.payload := le_of_not_lt hlt
      by_cases h2 : score x.payload = M
      · -- x attains the maximum: both lists end in x :: F
        rw [hgx, if_pos h2]
        by_cases h1 : score f.payload = M
        · rw [if_pos h1]
          simp only [List.append_assoc, List.cons_append, List.nil_append,
            List.singleton_append, List.getLastD_cons]
        · rw [if_neg h1]
          simp only [List.append_assoc, List.cons_append, List.nil_append,
            List.singleton_append, List.getLastD_cons]
      · -- neither f nor x attains it, so some member of xs does
        have hxM : score x.payload ≤ M := by
          rw [hM, maxScoreVal_cons, ← hg, hgx]
          exact le_maxScoreVal score xs x
        have h1 : ¬ score f.payload = M := by
          intro hh
          have : score x.payload = M := le_antisymm hxM (hh ▸ hfx)
          exact h2 this
        rw [hgx, if_neg h1, if_neg h2]
        have hFne : F ≠ [] := by
          rcases maxScoreVal_attained score (x :: xs) f with ha | ⟨y, hy, ha⟩
          · exact absurd (hM ▸ ha) h1
          · rcases List.mem_cons.1 hy with h3 | h3
            · exact absurd (h3 ▸ (hM ▸ ha)) h2
            · intro hnil
              have : y ∈ F := by
                rw [hF]
                exact List.mem_filter.2 ⟨h3, by simpa using (hM ▸ ha)⟩
              rw [hnil] at this
              simp at this
        simp only [List.nil_append]
        exact getLastD_irrel hFne x f

/-- When all group members share one `start` and have positive length, the
longest-by-`len` fold coincides with the greatest-`end` fold: claim C2's
amended selection rule. -/
theorem maxByLast_len_eq_end {s : Nat} :
    ∀ {grp : List Match} {best : Match}, best.start = s → best.start < best.«end» →
      (∀ x ∈ grp, x.start = s ∧ x.start < x.«end») →
      maxByLast Match.len best grp = lastMaxByEnd best grp := by
  intro grp
  induction grp with
  | nil => intro best _ _ _; rfl
  | cons x xs ih =>
    intro best hbs hbw hg
    obtain ⟨hxs, hxw⟩ := hg x (by simp)
    have hcond : (Match.len best ≤ Match.len x) ↔ (best.«end» ≤ x.«end») := by
      unfold Match.len
      omega
    rw [maxByLast_cons, lastMaxByEnd_cons]
    by_cases h : best.«end» ≤ x.«end»
    · rw [if_pos (hcond.2 h), if_pos h]
      exact ih hxs hxw (fun y hy => hg y (List.mem_cons_of_mem _ hy))
    · rw [if_neg (fun hh => h (hcond.1 hh)), if_neg h]
      exact ih hbs hbw (fun y hy => hg y (List.mem_cons_of_mem _ hy))

/-- `llLoop` ignores the prefix below the cursor. -/
theorem llLoop_dropWhile (c : Nat) :
    ∀ (l : List Match), llLoop c l = llLoop c (l.dropWhile (fun x => decide (x.start < c))) := by
  intro l
  induction l with
  | nil => rfl
  | cons m rest ih =>
    rw [List.dropWhile_cons]
    by_cases h : m.start < c
    · rw [if_pos (by simpa using h), llLoop, if_pos h]
      exact ih
    · rw [if_neg (by simpa using h)]

theorem lastMaxByEnd_mem (first : Match) (rest : List Match) :
    lastMaxByEnd first rest ∈ first :: rest :=
  foldl_choice_mem _ (fun b x => by by_cases h : b.«end» ≤ x.«end» <;> simp [h]) rest first

/-- On a sorted list of positive-length matches, the `resolve_salience_max`
loop computes exactly the filter-based description of the amended claim. -/
theorem smLoop_eq_specSM (score : Payload → ℚ) :
    ∀ (fuel : Nat) (l : List Match), l.Sorted startLe →
      (∀ x ∈ l, x.start < x.«end») →
      smLoop score fuel l = specSMStep (lastArgmax score) fuel l := by
  intro fuel
  induction fuel with
  | zero => intro l _ _; cases l <;> rfl
  | succ fuel ih =>
    intro l hs hw
    match l with
    | [] => rfl
    | m :: rest =>
      rcases List.sorted_cons.1 hs with ⟨hm, hrest⟩
      have hpt : ∀ x ∈ rest,
          (fun x => x.overlaps m) x = (fun x => decide (x.start < m.«end»)) x := by
        intro x hx
        have h1 : m.start ≤ x.start := hm x hx
        have h2 : x.start < x.«end» := hw x (List.mem_cons_of_mem _ hx)
        simp only [Match.overlaps]
        exact decide_eq_decide.2 (by omega)
      have hcomp : rest.takeWhile (fun x => x.overlaps m)
          = rest.filter (fun x => x.overlaps m) := by
        calc rest.takeWhile (fun x => x.overlaps m)
            = rest.takeWhile (fun x => decide (x.start < m.«end»)) := takeWhile_congr_mem hpt
          _ = rest.filter (fun x => decide (x.start < m.«end»)) :=
              sorted_takeWhile_lt_filter hrest
          _ = rest.filter (fun x => x.overlaps m) := (filter_congr_mem hpt).symm
      simp only [smLoop, specSMStep]
      rw [hcomp, maxScoreLast_eq_lastArgmax score (rest.filter (fun x => x.overlaps m)) m]
      congr 1
      rw [sorted_dropWhile_lt_filter hs]
      exact ih _ (hs.sublist (List.filter_sublist _))
        (fun x hx => hw x ((List.filter_sublist _).subset hx))

/-- On a sorted list of positive-length matches whose starts have all
reached the cursor, the `resolve_leftmost_longest` loop computes exactly
the smallest-start-group description of the amended claim. -/
theorem llLoop_eq_specLL :
    ∀ (fuel : Nat) (l : List Match) (c : Nat), l.Sorted startLe →
      (∀ x ∈ l, x.start < x.«end») → (∀ x ∈ l, c ≤ x.start) → l.length ≤ fuel →
      llLoop c l = specLLStep lastMaxByEnd fuel l := by
  intro fuel
  induction fuel with
  | zero =>
    intro l c _ _ _ hlen
    have hnil : l = [] := List.length_eq_zero.1 (Nat.le_zero.1 hlen)
    rw [hnil]
    rfl
  | succ fuel ih =>
    intro l c hs hw hc hlen
    match l with
    | [] => rfl
    | m :: rest =>
      rcases List.sorted_cons.1 hs with ⟨hm, hrest⟩
      have hcm : c ≤ m.start := hc m (by simp)
      have hmin : minStart m rest = m.start := by
        unfold minStart
        exact foldl_min_start (fun x hx => hm x hx)
      have hgrp : (m :: rest).filter (fun x => decide (x.start = minStart m rest))
          = m :: rest.takeWhile (fun x => decide (x.start = m.start)) := by
        rw [hmin, List.filter_cons, if_pos (by simp)]
        congr 1
        have hpt : ∀ x ∈ rest, (fun x => decide (x.start = m.start)) x
            = (fun x => decide (x.start < m.start + 1)) x := by
          intro x hx
          have hmx := hm x hx
          simp only [startLe] at hmx
          exact decide_eq_decide.2 (by omega)
        calc rest.filter (fun x => decide (x.start = m.start))
            = rest.filter (fun x => decide (x.start < m.start + 1)) := filter_congr_mem hpt
          _ = rest.takeWhile (fun x => decide (x.start < m.start + 1)) :=
              (sorted_takeWhile_lt_filter hrest).symm
          _ = rest.takeWhile (fun x => decide (x.start = m.start)) :=
              takeWhile_congr_mem (fun x hx => (hpt x hx).symm)
      have hsel : maxByLast Match.len m (rest.takeWhile (fun x => decide (x.start = m.start)))
          = lastMaxByEnd m (rest.takeWhile (fun x => decide (x.start = m.start))) :=
        maxByLast_len_eq_end rfl (hw m (by simp))
          (fun y hy => ⟨mem_start_group hy,
            hw y (List.mem_cons_of_mem _ ((List.takeWhile_sublist _).subset hy))⟩)
      have hwmem : lastMaxByEnd m (rest.takeWhile (fun x => decide (x.start = m.start)))
          ∈ m :: rest.takeWhile (fun x => decide (x.start = m.start)) := lastMaxByEnd_mem _ _
      have hwstart : (lastMaxByEnd m (rest.takeWhile (fun x => decide (x.start = m.start)))).start
          = m.start := by
        rcases List.mem_cons.1 hwmem with h1 | h1
        · rw [h1]
        · exact mem_start_group h1
      have hwwf : (lastMaxByEnd m (rest.takeWhile (fun x => decide (x.start = m.start)))).start
          < (lastMaxByEnd m (rest.takeWhile (fun x => decide (x.start = m.start)))).«end» := by
        rcases List.mem_cons.1 hwmem with h1 | h1
        · rw [h1]; exact hw m (by simp)
        · exact hw _ (List.mem_cons_of_mem _ ((List.takeWhile_sublist _).subset h1))
      rw [llLoop, if_neg (by omega), specLLStep, hgrp]
      simp only [hsel]
      congr 1
      rw [llLoop_dropWhile, List.filter_cons,
        if_neg (by simp only [decide_eq_true_eq]; omega)]
      rw [← sorted_dropWhile_lt_filter hrest]
      refine ih _ _ (hrest.sublist (List.dropWhile_sublist _))
        (fun x hx => hw x (List.mem_cons_of_mem _ ((List.dropWhile_sublist _).subset hx)))
        (fun x hx => mem_dropWhile_lt_lb hrest hx) ?_
      have h1 := (List.dropWhile_sublist
        (fun x => decide (x.start
          < (lastMaxByEnd m (rest.takeWhile (fun x => decide (x.start = m.start)))).«end»))
        (l := rest)).length_le
      simp only [List.length_cons] at hlen
      omega

/-- Every resolver output element is an element of the input list (shared
by the C5 and C10 arguments below). -/
theorem resolve_mem (score : Payload → ℚ) (ms : List Match) (policy : MatchPolicy) :
    ∀ x ∈ resolve_overlaps score ms policy, x ∈ ms := by
  intro x hx
  unfold resolve_overlaps at hx
  by_cases he : ms.isEmpty = true
  · rw [if_pos he] at hx
    exact hx
  · rw [if_neg he] at hx
    have hsub : x ∈ sortByStart ms → x ∈ ms :=
      fun hh => (List.perm_insertionSort startLe ms).subset hh
    cases policy with
    | LeftmostLongest => exact hsub (llLoop_mem hx)
    | LeftmostFirst => exact hsub (lfLoop_mem hx)
    | SalienceMax => exact hsub (smLoop_mem score hx)

/-- Under every policy each output match ends no later than the next one
starts. -/
theorem resolve_pairwise_end_start (score : Payload → ℚ) (ms : List Match)
    (policy : MatchPolicy) :
    (resolve_overlaps score ms policy).Pairwise (fun a b => a.«end» ≤ b.start) := by
  unfold resolve_overlaps
  by_cases he : ms.isEmpty = true
  · rw [if_pos he, List.isEmpty_iff.1 he]
    simp
  · rw [if_neg he]
    have hsorted := List.sorted_insertionSort startLe ms
    cases policy with
    | LeftmostLongest => exact llLoop_pairwise hsorted
    | LeftmostFirst => exact lfLoop_pairwise hsorted
    | SalienceMax => exact smLoop_pairwise score hsorted

/-- The 32-bit little-endian round trip. -/
theorem fromLe_toLe {x : Nat} (h : x < 2 ^ 32) :
    fromLeBytes (x % 256) (x / 256 % 256) (x / 256 ^ 2 % 256) (x / 256 ^ 3 % 256) = x := by
  unfold fromLeBytes
  have e2 : (256 : Nat) ^ 2 = 65536 := rfl
  have e3 : (256 : Nat) ^ 3 = 16777216 := rfl
  have e32 : (2 : Nat) ^ 32 = 4294967296 := rfl
  rw [e2, e3] at *
  rw [e32] at h
  omega

/-! ## Concrete fixtures

All fixture payloads carry the bit pattern `1065353216` (`1.0f32`) as their
salience, so the true derived `f32` score `salience * ln(count + 1)` is
strictly increasing in `count` on them, and exactly ties on equal counts;
the rational proxy `scoreCount` below realizes precisely those comparisons. -/

def plFix (c nn : Nat) : Payload := ⟨0, 1065353216, c, nn⟩

def scoreCount : Payload → ℚ := fun p => (p.count : ℚ)

/-! ## Claim C1 -/

/-- C1 counterexample: on the start-sorted matches
`(0,2)`, `(1,3)`, `(2,4)` the chain-components claim would merge all three
into one component (each overlaps the next) and emit only the best match
`(0,2)`, but the resolver's component stops at `(2,4)` — which does not
overlap the FIRST member `(0,2)` — so the code emits `(0,2)` and `(2,4)`.
The fixture scores (counts 9, 0, 0 at salience 1.0) make `(0,2)` the
score-maximal match under the true `f32` score and under `scoreCount`
alike. -/
theorem salienceMax_chain_partition_cex :
    resolve_overlaps scoreCount
        [⟨0, 2, 0, plFix 9 2⟩, ⟨1, 3, 1, plFix 0 2⟩, ⟨2, 4, 2, plFix 0 2⟩] .SalienceMax
      ≠ specSalienceMaxChainClaim scoreCount
        [⟨0, 2, 0, plFix 9 2⟩, ⟨1, 3, 1, plFix 0 2⟩, ⟨2, 4, 2, plFix 0 2⟩] := by
  decide

/-- C1 amended: for every score function and every input of positive-length
matches, the salience_max policy groups each maximal run of matches
overlapping the run's FIRST match, selects the last score-maximal member,
and resumes at the first match whose start has reached the selection's end
(matches overlapping the selection but not the component head are
reconsidered). -/
theorem salienceMax_first_overlap_grouping (score : Payload → ℚ) (ms : List Match)
    (h : ∀ m ∈ ms, m.start < m.«end») :
    resolve_overlaps score ms .SalienceMax = specSalienceMaxAmended score ms := by
  unfold resolve_overlaps specSalienceMaxAmended resolve_salience_max
  by_cases he : ms.isEmpty = true
  · rw [if_pos he, List.isEmpty_iff.1 he]
    rfl
  · rw [if_neg he]
    have hlen : (sortByStart ms).length = ms.length :=
      (List.perm_insertionSort startLe ms).length_eq
    rw [hlen]
    exact smLoop_eq_specSM score ms.length (sortByStart ms)
      (List.sorted_insertionSort startLe ms)
      (fun x hx => h x ((List.perm_insertionSort startLe ms).subset hx))

theorem salienceMax_first_overlap_grouping_w :
    (∀ m ∈ [Match.mk 0 2 0 (plFix 9 2), Match.mk 3 4 1 (plFix 0 2)], m.start < m.«end»)
    ∧ resolve_overlaps scoreCount
        [Match.mk 0 2 0 (plFix 9 2), Match.mk 3 4 1 (plFix 0 2)] .SalienceMax
      = specSalienceMaxAmended scoreCount
        [Match.mk 0 2 0 (plFix 9 2), Match.mk 3 4 1 (plFix 0 2)] :=
  ⟨by decide, salienceMax_first_overlap_grouping scoreCount _ (by decide)⟩

/-! ## Claim C2 -/

/-- C2 counterexample: two matches with the same span `(0,2)` but
pattern ids 5 and 3, in that input order.  The claim's selection (greatest
end, ties by greatest pattern_index) would pick pattern 5; the resolver's
`max_by_key` keeps the LAST equally-long group member and picks
pattern 3. -/
theorem leftmostLongest_tie_cex :
    resolve_overlaps scoreCount
        [⟨0, 2, 5, plFix 0 2⟩, ⟨0, 2, 3, plFix 0 2⟩] .LeftmostLongest
      ≠ specLeftmostLongestClaim [⟨0, 2, 5, plFix 0 2⟩, ⟨0, 2, 3, plFix 0 2⟩] := by
  decide

/-- C2 amended: for every input of positive-length matches the
leftmost_longest policy repeatedly takes, among all matches sharing the
smallest remaining start, the one with the greatest end — of several such
the LAST in the stable-sorted order (pattern_index is never consulted) —
then advances the cursor to that match's end and discards every match whose
start is below the cursor. -/
theorem leftmostLongest_group_cursor (score : Payload → ℚ) (ms : List Match)
    (h : ∀ m ∈ ms, m.start < m.«end») :
    resolve_overlaps score ms .LeftmostLongest = specLeftmostLongestAmended ms := by
  unfold resolve_overlaps specLeftmostLongestAmended resolve_leftmost_longest
  by_cases he : ms.isEmpty = true
  · rw [if_pos he, List.isEmpty_iff.1 he]
    rfl
  · rw [if_neg he]
    refine llLoop_eq_specLL ms.length (sortByStart ms) 0
      (List.sorted_insertionSort startLe ms)
      (fun x hx => h x ((List.perm_insertionSort startLe ms).subset hx))
      (fun x _ => Nat.zero_le _) ?_
    have hlen : (sortByStart ms).length = ms.length :=
      (List.perm_insertionSort startLe ms).length_eq
    exact Nat.le_of_eq hlen

theorem leftmostLongest_group_cursor_w :
    (∀ m ∈ [Match.mk 0 3 0 (plFix 1 3), Match.mk 0 2 1 (plFix 1 2), Match.mk 4 6 2 (plFix 1 2)],
        m.start < m.«end»)
    ∧ resolve_overlaps scoreCount
        [Match.mk 0 3 0 (plFix 1 3), Match.mk 0 2 1 (plFix 1 2), Match.mk 4 6 2 (plFix 1 2)]
        .LeftmostLongest
      = specLeftmostLongestAmended
        [Match.mk 0 3 0 (plFix 1 3), Match.mk 0 2 1 (plFix 1 2), Match.mk 4 6 2 (plFix 1 2)] :=
  ⟨by decide, leftmostLongest_group_cursor scoreCount _ (by decide)⟩

/-! ## Claim C3 -/

/-- C3 counterexample: two matches in one component with identical salience
and count — hence exactly equal derived `f32` scores — where the first has
the greater `n` (and the smaller start and pattern_id).  The claimed tie
rules pick the first; the resolver's `max_by` keeps the LAST equally-scored
member and picks the second. -/
theorem salienceMax_tie_order_cex :
    resolve_overlaps scoreCount
        [⟨0, 3, 0, plFix 5 3⟩, ⟨1, 2, 1, plFix 5 1⟩] .SalienceMax
      ≠ specSalienceMaxClaimTie scoreCount
        [⟨0, 3, 0, plFix 5 3⟩, ⟨1, 2, 1, plFix 5 1⟩] := by
  decide

/-- C3 amended: within a component the selection the resolver performs
(`maxScoreLast`, the `max_by` fold of `resolve_salience_max`) returns
exactly the LAST match of the component attaining the maximal derived
score; `n`, `start` and `pattern_id` are never consulted. -/
theorem salienceMax_last_tie_selection (score : Payload → ℚ) (first : Match)
    (rest : List Match) :
    maxScoreLast score first rest = lastArgmax score first rest :=
  maxScoreLast_eq_lastArgmax score rest first

/-! ## Claim C4 -/

/-- The failing input for C4: one full 17-byte record (phrase_id 1,
salience bits 0, count 2, n 3) followed by a 3-byte partial record. -/
def partialTailBytes : List Nat :=
  [1, 0, 0, 0, 0, 0, 0, 0, 2, 0, 0, 0, 0, 0, 0, 0, 3, 9, 9, 9]

/-- C4: on a 20-byte source — NOT a multiple of the 17-byte record size —
`load_payloads` succeeds, silently dropping the partial trailing record,
because `read_exact` reports a partial fill with `UnexpectedEof`, the very
kind the loop treats as a clean end of stream.  The spec requires a fatal
format error here. -/
theorem load_payloads_partial_record_eval :
    load_payloads partialTailBytes = .ok [⟨1, 0, 2, 3⟩]
    ∧ partialTailBytes.length % 17 ≠ 0 :=
  ⟨rfl, by decide⟩

/-! ## Claim C5 -/

/-- C5 counterexample: with the degenerate (but constructible) match
`(5,2)` whose end precedes its start, the salience_max output is
`[(5,2), (4,100)]`, which is not in ascending start order, so the claim's
universal quantification over all input lists fails.  (Counts 0, 1, 9 at
salience 1.0 order the true `f32` scores exactly as `scoreCount` does.) -/
theorem resolve_not_ascending_cex :
    ¬ (resolve_overlaps scoreCount
        [⟨1, 6, 0, plFix 0 2⟩, ⟨4, 100, 1, plFix 1 2⟩, ⟨5, 2, 2, plFix 9 2⟩]
        .SalienceMax).Sorted startLe := by
  decide

/-- C5 amended: for every input list in which each match satisfies
`start ≤ end` (all matcher-produced matches do) and every policy, the
resolver output is in ascending start order and contains no two overlapping
matches; truncating to any `max` prefix — as `match_tokens` does — preserves
the non-overlap. -/
theorem resolve_sorted_nonoverlap (score : Payload → ℚ) (ms : List Match)
    (policy : MatchPolicy) (h : ∀ m ∈ ms, m.start ≤ m.«end») :
    (resolve_overlaps score ms policy).Sorted startLe
    ∧ (resolve_overlaps score ms policy).Pairwise
        (fun a b => ¬ (a.start < b.«end» ∧ b.start < a.«end»))
    ∧ ∀ mx : Nat, ((resolve_overlaps score ms policy).take mx).Pairwise
        (fun a b => ¬ (a.start < b.«end» ∧ b.start < a.«end»)) := by
  have hpw := resolve_pairwise_end_start score ms policy
  have hno : (resolve_overlaps score ms policy).Pairwise
      (fun a b => ¬ (a.start < b.«end» ∧ b.start < a.«end»)) :=
    hpw.imp (fun hab => by omega)
  refine ⟨?_, hno, ?_⟩
  · refine hpw.imp_of_mem ?_
    intro a b ha hb hab
    have haw := h a (resolve_mem score ms policy a ha)
    simp only [startLe]
    omega
  · intro mx
    exact hno.sublist (List.take_sublist mx _)

theorem resolve_sorted_nonoverlap_w :
    (∀ m ∈ [Match.mk 0 2 0 (plFix 1 2), Match.mk 1 3 1 (plFix 2 2)], m.start ≤ m.«end»)
    ∧ (resolve_overlaps scoreCount
        [Match.mk 0 2 0 (plFix 1 2), Match.mk 1 3 1 (plFix 2 2)] .LeftmostFirst).Sorted startLe :=
  ⟨by decide, (resolve_sorted_nonoverlap scoreCount _ .LeftmostFirst (by decide)).1⟩

/-! ## Claim C6 -/

/-- C6: a written record is exactly 17 bytes, its reserved gap (offsets
12..15) is written as zeros, reading it back — also in front of any
following stream — returns the payload unchanged (the salience bit pattern
exactly preserved), and the reserved gap's content is ignored on read. -/
theorem payload_roundtrip (p : Payload)
    (h1 : p.phrase_id < 2 ^ 32) (h2 : p.salience < 2 ^ 32)
    (h3 : p.count < 2 ^ 32) (h4 : p.n < 256) :
    Payload.read_from p.write_to = .ok (p, [])
    ∧ (∀ rest : List Nat, Payload.read_from (p.write_to ++ rest) = .ok (p, rest))
    ∧ p.write_to.length = 17
    ∧ (p.write_to.drop 12).take 4 = [0, 0, 0, 0]
    ∧ ∀ a b c d : Nat,
        Payload.read_from (p.write_to.take 12 ++ [a, b, c, d, p.n]) = .ok (p, []) := by
  obtain ⟨pid, sal, cnt, nn⟩ := p
  have h1' : pid < 2 ^ 32 := h1
  have h2' : sal < 2 ^ 32 := h2
  have h3' : cnt < 2 ^ 32 := h3
  have hread : ∀ a b c d : Nat, ∀ rest : List Nat,
      Payload.read_from ([pid % 256, pid / 256 % 256, pid / 256 ^ 2 % 256, pid / 256 ^ 3 % 256,
        sal % 256, sal / 256 % 256, sal / 256 ^ 2 % 256, sal / 256 ^ 3 % 256,
        cnt % 256, cnt / 256 % 256, cnt / 256 ^ 2 % 256, cnt / 256 ^ 3 % 256,
        a, b, c, d, nn] ++ rest) = .ok (⟨pid, sal, cnt, nn⟩, rest) := by
    intro a b c d rest
    unfold Payload.read_from
    rw [if_pos (by simp)]
    have hl : ([pid % 256, pid / 256 % 256, pid / 256 ^ 2 % 256, pid / 256 ^ 3 % 256,
        sal % 256, sal / 256 % 256, sal / 256 ^ 2 % 256, sal / 256 ^ 3 % 256,
        cnt % 256, cnt / 256 % 256, cnt / 256 ^ 2 % 256, cnt / 256 ^ 3 % 256,
        a, b, c, d, nn] : List Nat).length = 17 := rfl
    rw [← hl, List.take_left, List.drop_left]
    refine congrArg (fun q => Except.ok (q, rest)) ?_
    show Payload.mk
        (fromLeBytes (pid % 256) (pid / 256 % 256) (pid / 256 ^ 2 % 256) (pid / 256 ^ 3 % 256))
        (fromLeBytes (sal % 256) (sal / 256 % 256) (sal / 256 ^ 2 % 256) (sal / 256 ^ 3 % 256))
        (fromLeBytes (cnt % 256) (cnt / 256 % 256) (cnt / 256 ^ 2 % 256) (cnt / 256 ^ 3 % 256))
        nn = Payload.mk pid sal cnt nn
    rw [fromLe_toLe h1', fromLe_toLe h2', fromLe_toLe h3']
  exact ⟨hread 0 0 0 0 [], fun rest => hread 0 0 0 0 rest, rfl, rfl,
    fun a b c d => hread a b c d []⟩

theorem payload_roundtrip_w :
    ((12345 : Nat) < 2 ^ 32 ∧ (1065353216 : Nat) < 2 ^ 32
      ∧ (314 : Nat) < 2 ^ 32 ∧ (2 : Nat) < 256)
    ∧ Payload.read_from (Payload.mk 12345 1065353216 314 2).write_to
      = .ok (⟨12345, 1065353216, 314, 2⟩, []) :=
  ⟨by decide,
    (payload_roundtrip ⟨12345, 1065353216, 314, 2⟩
      (by decide) (by decide) (by decide) (by decide)).1⟩

/-! ## Claim C7 -/

/-- C7 counterexample: at `count = u32::MAX = 2^32 - 1` the `count + 1`
inside `salience_score` wraps to 0 (release builds; debug builds panic), so
the claim that the addition never overflows is false. -/
theorem salience_count_overflow_cex :
    countPlusOne (2 ^ 32 - 1) = 0 ∧ (2 ^ 32 - 1) + 1 ≠ 0 := by
  decide

/-- C7 amended: for every `count` with `count + 1 < 2^32` — that is, every
count except `u32::MAX` — the addition does not wrap, the logarithm's
argument is at least 1, and the multiplier `ln(count + 1)` is finite and
non-negative.  (The `f32` rounding of `count + 1` stays within `[1, 2^32]`,
preserving both properties.) -/
theorem salience_mult_no_overflow (count : Nat) (h : count + 1 < 2 ^ 32) :
    countPlusOne count = count + 1
    ∧ (1 : ℝ) ≤ (countPlusOne count : ℝ)
    ∧ 0 ≤ Real.log (countPlusOne count : ℝ) := by
  have he : countPlusOne count = count + 1 := by
    unfold countPlusOne
    exact Nat.mod_eq_of_lt h
  have h1 : (1 : ℝ) ≤ (countPlusOne count : ℝ) := by
    rw [he]
    exact_mod_cast Nat.succ_le_succ (Nat.zero_le count)
  exact ⟨he, h1, Real.log_nonneg h1⟩

theorem salience_mult_no_overflow_w :
    (0 + 1 < 2 ^ 32) ∧ countPlusOne 0 = 0 + 1 :=
  ⟨by decide, (salience_mult_no_overflow 0 (by decide)).1⟩

/-! ## Claim C8 -/

/-- The failing build input for C8: `separator_id = 1` and a single valid
phrase `["apple"]`. -/
def sepCollisionConfig : BuildConfig := ⟨"v1", "tok", 1, none, none⟩

def sepCollisionLines : List PhraseInput := [⟨["apple"], 1, 1, 5⟩]

/-- C8: the builder accepts the phrase (no validation consults
`separator_id`), the vocabulary assigns the token "apple" id 1, and the
pattern built into the automaton is `[1]` — it contains the configured
separator id, which the spec forbids. -/
theorem builder_separator_not_rejected_eval :
    (load_and_validate_phrases sepCollisionConfig sepCollisionLines).1.length = 1
    ∧ builtPatterns sepCollisionConfig sepCollisionLines
      = [[sepCollisionConfig.separator_id]] :=
  ⟨rfl, rfl⟩

/-! ## Claim C9 -/

/-- C9 counterexample: with no matcher loaded, `healthcheck` raises a
Ruby `RuntimeError` — it does not return `false`. -/
theorem healthcheck_not_loaded_cex :
    healthcheck none = .error (.runtimeError "Matcher not loaded")
    ∧ healthcheck none ≠ .ok false :=
  ⟨rfl, fun h => Except.noConfusion h⟩

/-- C9 amended: `healthcheck` returns `true` when a matcher is loaded and
raises a "Matcher not loaded" error — rather than returning `false` — when
none is. -/
theorem healthcheck_behavior :
    (∀ m : Matcher, healthcheck (some m) = .ok true)
    ∧ healthcheck none = .error (.runtimeError "Matcher not loaded") :=
  ⟨fun _ => rfl, rfl⟩

/-! ## Claim C10 -/

/-- C10: under every policy and score function, each match in the resolver
output is one of the input matches, carried over whole — `start`, `end`,
`pattern_id` and `payload` unchanged (list membership is over entire
`Match` values). -/
theorem resolve_members_of_input (score : Payload → ℚ) (ms : List Match)
    (policy : MatchPolicy) (x : Match) (hx : x ∈ resolve_overlaps score ms policy) :
    x ∈ ms :=
  resolve_mem score ms policy x hx

theorem resolve_members_of_input_w :
    (Match.mk 2 5 0 (plFix 3 3)
      ∈ resolve_overlaps scoreCount [Match.mk 2 5 0 (plFix 3 3)] .SalienceMax)
    ∧ Match.mk 2 5 0 (plFix 3 3) ∈ [Match.mk 2 5 0 (plFix 3 3)] :=
  ⟨by decide, resolve_members_of_input scoreCount _ .SalienceMax _ (by decide)⟩

end PhraseKit
